import Mathlib

/-
Verification of the line-segment intersection engine (`src/intersect.rs`,
`src/geometry.rs`) against its specification.

The Rust code works on `f32`; we embed the arithmetic in `ℚ` (exact
arithmetic, the same field operations the source performs).  The source's
floating-point literal `10e-3` is the exact rational `1/100`.  Fallible code
(the `usize` subtraction `lines.len() - 1`, which underflows on an empty
slice) is modelled with `Option`.
-/

namespace Intersect

/-- `geometry::Point`: two coordinates. -/
@[ext]
structure Point where
  x : ℚ
  y : ℚ
deriving DecidableEq

/-- `geometry::Line`: a segment with a unique id and two endpoints.
`PartialEq for Line` in the source compares ids only. -/
structure Line where
  id : ℕ
  a : Point
  b : Point
deriving DecidableEq

instance : Inhabited Point := ⟨⟨0, 0⟩⟩

/-- `Default for Line`: id 0 and both endpoints at the origin. -/
instance : Inhabited Line := ⟨⟨0, default, default⟩⟩

/-- `impl ops::Add<Point> for Point`. -/
def Point.add (v w : Point) : Point := ⟨v.x + w.x, v.y + w.y⟩

/-- `impl ops::Sub<Point> for Point`. -/
def Point.sub (v w : Point) : Point := ⟨v.x - w.x, v.y - w.y⟩

/-- `impl ops::Mul<f32> for Point` (and its commuted form). -/
def Point.scale (c : ℚ) (v : Point) : Point := ⟨v.x * c, v.y * c⟩

/-- `cross2d(v, w) = v.x * w.y - v.y * w.x`. -/
def cross2d (v w : Point) : ℚ := v.x * w.y - v.y * w.x

/-- `intersect::Intersection`: the two contributing segments and the point. -/
structure Intersection where
  l1 : Line
  l2 : Line
  point : Point
deriving DecidableEq

/-- `intersect::Report`. -/
structure Report where
  intersections : List Intersection
  num_tests : ℕ
deriving DecidableEq

/-- The tolerance used throughout the source, written `10e-3` (= 0.01). -/
def eps : ℚ := 1 / 100

/-- `line_intersect` from `src/intersect.rs`, translated clause for clause:
the collinear early return, the parallel early return, then the parameter
test `rs.abs() > epsilon && epsilon < t && t < 1.0 && epsilon < u && u < 1.0`
producing `p + t * r`. -/
def line_intersect (l1 l2 : Line) : Option Intersection :=
  let p := l1.a
  let r := l1.b.sub p
  let q := l2.a
  let s := l2.b.sub q
  let rs := cross2d r s
  let qp_r := cross2d (q.sub p) r
  if |rs| < eps ∧ |qp_r| < eps then none
  else if |rs| < eps ∧ |qp_r| > eps then none
  else
    let t := cross2d (q.sub p) s / rs
    let u := qp_r / rs
    if |rs| > eps ∧ eps < t ∧ t < 1 ∧ eps < u ∧ u < 1 then
      some ⟨l1, l2, p.add (Point.scale t r)⟩
    else none

/-- `cross2d(r, s)` for the direction vectors of the two segments. -/
def rsOf (l1 l2 : Line) : ℚ := cross2d (l1.b.sub l1.a) (l2.b.sub l2.a)

/-- `cross2d(q - p, r)`. -/
def qprOf (l1 l2 : Line) : ℚ := cross2d (l2.a.sub l1.a) (l1.b.sub l1.a)

/-- `cross2d(q - p, s)`. -/
def qpsOf (l1 l2 : Line) : ℚ := cross2d (l2.a.sub l1.a) (l2.b.sub l2.a)

/-- The parameter `t` computed by `line_intersect`. -/
def tOf (l1 l2 : Line) : ℚ := qpsOf l1 l2 / rsOf l1 l2

/-- The parameter `u` computed by `line_intersect`. -/
def uOf (l1 l2 : Line) : ℚ := qprOf l1 l2 / rsOf l1 l2

/-- The candidate intersection point `p + t * r`. -/
def ptOf (l1 l2 : Line) : Point :=
  l1.a.add (Point.scale (tOf l1 l2) (l1.b.sub l1.a))

/-- Closed-form characterisation of `line_intersect`: the two early returns
are subsumed by the final guard, because the guard requires `|rs| > ε`. -/
theorem line_intersect_char (l1 l2 : Line) :
    line_intersect l1 l2 =
      if |rsOf l1 l2| > eps ∧ eps < tOf l1 l2 ∧ tOf l1 l2 < 1 ∧
          eps < uOf l1 l2 ∧ uOf l1 l2 < 1 then
        some ⟨l1, l2, ptOf l1 l2⟩
      else none := by
  simp only [line_intersect, rsOf, qprOf, qpsOf, tOf, uOf, ptOf]
  split_ifs with h1 h2 h3 h4 h5 <;> try rfl
  · exact absurd h2.1 (lt_asymm h1.1)
  · exact absurd h4.1 (lt_asymm h3.1)

/-- A segment never intersects itself: `r × r = 0` and `(p-p) × r = 0`. -/
theorem line_intersect_self (l : Line) : line_intersect l l = none := by
  rw [line_intersect_char]
  have hrs : rsOf l l = 0 := by
    simp [rsOf, cross2d, Point.sub]; ring
  rw [if_neg]
  rintro ⟨h, -⟩
  rw [hrs] at h
  simp [eps] at h
  linarith

attribute [irreducible] line_intersect

theorem rsOf_swap (l1 l2 : Line) : rsOf l2 l1 = -rsOf l1 l2 := by
  simp only [rsOf, cross2d, Point.sub]; ring

theorem qprOf_swap (l1 l2 : Line) : qprOf l2 l1 = -qpsOf l1 l2 := by
  simp only [qprOf, qpsOf, cross2d, Point.sub]; ring

theorem qpsOf_swap (l1 l2 : Line) : qpsOf l2 l1 = -qprOf l1 l2 := by
  simp only [qpsOf, qprOf, cross2d, Point.sub]; ring

theorem tOf_swap (l1 l2 : Line) : tOf l2 l1 = uOf l1 l2 := by
  rw [tOf, uOf, qpsOf_swap, rsOf_swap, neg_div_neg_eq]

theorem uOf_swap (l1 l2 : Line) : uOf l2 l1 = tOf l1 l2 := by
  rw [uOf, tOf, qprOf_swap, rsOf_swap, neg_div_neg_eq]

/-- The two parametrisations meet at the same point: when `rs ≠ 0`,
`q + u·s = p + t·r`. -/
theorem ptOf_swap (l1 l2 : Line) (h : rsOf l1 l2 ≠ 0) :
    ptOf l2 l1 = ptOf l1 l2 := by
  simp only [ptOf, tOf, Point.add, Point.scale, Point.sub, Point.mk.injEq]
  rw [qpsOf_swap l1 l2, rsOf_swap l1 l2, neg_div_neg_eq]
  constructor <;>
    (field_simp
     simp only [rsOf, qpsOf, qprOf, cross2d, Point.sub]
     ring)

/-- Core symmetry: `line_intersect` of the swapped pair yields the mirrored
result with the identical intersection point. -/
theorem line_intersect_swap (l1 l2 : Line) :
    line_intersect l2 l1 =
      (line_intersect l1 l2).map (fun i => ⟨l2, l1, i.point⟩) := by
  rw [line_intersect_char, line_intersect_char]
  rw [rsOf_swap l1 l2, uOf_swap l1 l2, tOf_swap l1 l2, abs_neg]
  by_cases h : |rsOf l1 l2| > eps ∧ eps < tOf l1 l2 ∧ tOf l1 l2 < 1 ∧
      eps < uOf l1 l2 ∧ uOf l1 l2 < 1
  · have h' : |rsOf l1 l2| > eps ∧ eps < uOf l1 l2 ∧ uOf l1 l2 < 1 ∧
        eps < tOf l1 l2 ∧ tOf l1 l2 < 1 := ⟨h.1, h.2.2.2.1, h.2.2.2.2, h.2.1, h.2.2.1⟩
    rw [if_pos h', if_pos h]
    have hrs : rsOf l1 l2 ≠ 0 := by
      intro h0
      rw [h0] at h
      have := h.1
      simp [eps] at this
      linarith
    simp [ptOf_swap l1 l2 hrs]
  · have h' : ¬ (|rsOf l1 l2| > eps ∧ eps < uOf l1 l2 ∧ uOf l1 l2 < 1 ∧
        eps < tOf l1 l2 ∧ tOf l1 l2 < 1) := by
      intro hc
      exact h ⟨hc.1, hc.2.2.2.1, hc.2.2.2.2, hc.2.1, hc.2.2.1⟩
    rw [if_neg h', if_neg h]
    rfl

/-! ### Brute-force strategy -/

/-- The index pairs `(i, j)` visited by the nested loops
`for i in 0..n-1 { for j in i+1..n }`. -/
def brutePairs (n : ℕ) : List (ℕ × ℕ) :=
  (List.range (n - 1)).flatMap fun i =>
    (List.range' (i + 1) (n - (i + 1))).map fun j => (i, j)

/-- The intersections accumulated by the brute-force double loop. -/
def bruteIntersections (lines : List Line) : List Intersection :=
  (brutePairs lines.length).filterMap fun ij =>
    line_intersect (lines.getD ij.1 default) (lines.getD ij.2 default)

/-- `BruteForceIntersector::report_intersections`.  On an empty slice the
source evaluates `lines.len() - 1`, which underflows `usize` (a panic in
debug builds); that failure is modelled as `none`.  The source declares
`let mut num_tests = 0` and never increments it, so the report always
carries `num_tests = 0`. -/
def bruteForce_report (lines : List Line) : Option Report :=
  if lines.length = 0 then none
  else some ⟨bruteIntersections lines, 0⟩

theorem brutePairs_mem {n i j : ℕ} (hij : i < j) (hj : j < n) :
    (i, j) ∈ brutePairs n := by
  simp only [brutePairs, List.mem_flatMap, List.mem_map, List.mem_range]
  refine ⟨i, by omega, j, ?_, rfl⟩
  rw [List.mem_range']
  exact ⟨j - (i + 1), by omega, by omega⟩

/-- Every positive `line_intersect` result over an index pair `i < j`
appears in the brute-force report. -/
theorem bruteIntersections_mem {lines : List Line} {i j : ℕ} {it : Intersection}
    (hij : i < j) (hj : j < lines.length)
    (h : line_intersect (lines.getD i default) (lines.getD j default) = some it) :
    it ∈ bruteIntersections lines := by
  rw [bruteIntersections, List.mem_filterMap]
  exact ⟨(i, j), brutePairs_mem hij hj, h⟩

/-! ### Active-set sweep-line strategy (`SweepLineIntersector`) -/

/-- `intersect::EventType`. -/
inductive EventType where
  | Start
  | End
  | Intersection
deriving DecidableEq

/-- `intersect::SweepLinePoint`. -/
structure SweepLinePoint where
  line : Line
  point : Point
  event : EventType
deriving DecidableEq

/-- Whether an event is a `Start` event. -/
def isStart (e : SweepLinePoint) : Bool :=
  match e.event with
  | EventType.Start => true
  | _ => false

/-- The flat-mapped event list: two events per segment, the endpoint with the
strictly greater `y` tagged `Start`, the other `End`.  A segment whose
endpoints share their `y` gets two `End` events (`a.y > b.y` and
`b.y > a.y` both fail). -/
def sweepEvents (lines : List Line) : List SweepLinePoint :=
  lines.flatMap fun l =>
    [ ⟨l, l.a, if l.b.y < l.a.y then EventType.Start else EventType.End⟩,
      ⟨l, l.b, if l.a.y < l.b.y then EventType.Start else EventType.End⟩ ]

/-- One step of insertion sort: place `e` before the first element whose `y`
is not strictly greater. -/
def insertYDesc (e : SweepLinePoint) : List SweepLinePoint → List SweepLinePoint
  | [] => [e]
  | x :: xs =>
    if e.point.y < x.point.y then x :: insertYDesc e xs else e :: x :: xs

/-- `points.sort_by(|p, q| p.point.y.partial_cmp(&q.point.y).unwrap().reverse())`:
Rust's `sort_by` is a stable sort, and a stable sort result is uniquely
determined by the key order (descending `y`, ties in original order), so this
insertion sort computes the same list. -/
def sortYDesc : List SweepLinePoint → List SweepLinePoint
  | [] => []
  | x :: xs => insertYDesc x (sortYDesc xs)

/-- Working state of the active-set sweep.  `tests` is the list of pairs fed
to `line_intersect`; the source's `num_tests` counter increments exactly once
per element of this list. -/
structure SweepState where
  intersections : List Intersection
  tests : List (Line × Line)
  active : List Line
deriving DecidableEq

/-- One iteration of the event loop of `SweepLineIntersector`:
a `Start` event tests the new segment against every active segment and then
pushes it; an `End` event retains only active segments different from the
event's segment (`PartialEq for Line` compares ids); `Intersection` events
do nothing. -/
def sweepStep (st : SweepState) (e : SweepLinePoint) : SweepState :=
  match e.event with
  | EventType.Start =>
    { intersections := st.intersections ++ st.active.filterMap (fun o => line_intersect e.line o),
      tests := st.tests ++ st.active.map (fun o => (e.line, o)),
      active := st.active ++ [e.line] }
  | EventType.End =>
    { st with active := st.active.filter (fun x => x.id != e.line.id) }
  | EventType.Intersection => st

/-- The final state of `SweepLineIntersector::report_intersections`. -/
def sweepRun (lines : List Line) : SweepState :=
  (sortYDesc (sweepEvents lines)).foldl sweepStep ⟨[], [], []⟩

/-- `SweepLineIntersector::report_intersections`. -/
def sweepLine_report (lines : List Line) : Report :=
  ⟨(sweepRun lines).intersections, (sweepRun lines).tests.length⟩

theorem insertYDesc_perm (e : SweepLinePoint) (l : List SweepLinePoint) :
    (insertYDesc e l).Perm (e :: l) := by
  induction l with
  | nil => exact List.Perm.refl _
  | cons x xs ih =>
    rw [insertYDesc]
    split_ifs
    · exact (ih.cons x).trans (List.Perm.swap e x xs)
    · exact List.Perm.refl _

theorem sortYDesc_perm (l : List SweepLinePoint) : (sortYDesc l).Perm l := by
  induction l with
  | nil => exact List.Perm.refl _
  | cons x xs ih =>
    exact (insertYDesc_perm x (sortYDesc xs)).trans (ih.cons x)

/-- Number of `Start` events in an event list. -/
def countStarts (l : List SweepLinePoint) : ℕ := l.countP isStart

/-- `Abound S a = a + (a+1) + ... + (a+S-1)`: an upper bound for the tests
performed by `S` start events, beginning with `a` active segments. -/
def Abound : ℕ → ℕ → ℕ
  | 0, _ => 0
  | S + 1, a => a + Abound S (a + 1)

theorem Abound_mono {S a b : ℕ} (h : a ≤ b) : Abound S a ≤ Abound S b := by
  induction S generalizing a b with
  | zero => exact le_refl _
  | succ S ih => exact Nat.add_le_add h (ih (by omega))

theorem Abound_mono_left {S T : ℕ} (a : ℕ) (h : S ≤ T) : Abound S a ≤ Abound T a := by
  induction T generalizing S a with
  | zero =>
    have hS : S = 0 := Nat.le_zero.mp h
    subst hS
    exact le_refl _
  | succ T ih =>
    cases S with
    | zero => exact Nat.zero_le _
    | succ S => exact Nat.add_le_add_left (ih _ (by omega)) a

theorem Abound_closed (S a : ℕ) : 2 * Abound S a + S = S * (2 * a + S) := by
  induction S generalizing a with
  | zero => simp [Abound]
  | succ S ih =>
    rw [Abound]
    have := ih (a + 1)
    ring_nf
    ring_nf at this
    omega

theorem Abound_le {S n : ℕ} (h : S ≤ n) : Abound S 0 ≤ n * (n - 1) / 2 := by
  have h1 : Abound S 0 ≤ Abound n 0 := Abound_mono_left 0 h
  rw [Nat.le_div_iff_mul_le (by norm_num)]
  have h2 := Abound_closed n 0
  cases n with
  | zero => simpa [Abound] using h1
  | succ m =>
    have hm : (m + 1) - 1 = m := rfl
    rw [hm]
    nlinarith [h1, h2]

theorem sweepStep_start (st : SweepState) (e : SweepLinePoint)
    (h : e.event = EventType.Start) :
    sweepStep st e =
      ⟨st.intersections ++ st.active.filterMap (fun o => line_intersect e.line o),
       st.tests ++ st.active.map (fun o => (e.line, o)),
       st.active ++ [e.line]⟩ := by
  simp [sweepStep, h]

theorem sweepStep_end (st : SweepState) (e : SweepLinePoint)
    (h : e.event = EventType.End) :
    sweepStep st e = { st with active := st.active.filter (fun x => x.id != e.line.id) } := by
  simp [sweepStep, h]

theorem sweepStep_inter (st : SweepState) (e : SweepLinePoint)
    (h : e.event = EventType.Intersection) :
    sweepStep st e = st := by
  simp [sweepStep, h]

/-- Fold invariant for the active-set sweep: each `Start` event adds exactly
`active.length` tests and one active segment, `End` events only shrink the
active set. -/
theorem sweep_foldl_tests (pts : List SweepLinePoint) (st : SweepState) :
    ((pts.foldl sweepStep st).tests).length ≤
      st.tests.length + Abound (countStarts pts) st.active.length := by
  induction pts generalizing st with
  | nil => simp [Abound, countStarts]
  | cons e pts ih =>
    rw [List.foldl_cons]
    rcases he : e.event with _ | _ | _
    · have hcount : countStarts (e :: pts) = countStarts pts + 1 := by
        simp [countStarts, List.countP_cons, isStart, he]
      rw [hcount, sweepStep_start st e he]
      have h1 := ih ⟨st.intersections ++ st.active.filterMap (fun o => line_intersect e.line o),
        st.tests ++ st.active.map (fun o => (e.line, o)),
        st.active ++ [e.line]⟩
      simp only [List.length_append, List.length_map, List.length_cons,
        List.length_nil, Nat.zero_add] at h1
      simp only [Abound]
      omega
    · have hcount : countStarts (e :: pts) = countStarts pts := by
        simp [countStarts, List.countP_cons, isStart, he]
      rw [hcount, sweepStep_end st e he]
      have h1 := ih { st with active := st.active.filter (fun x => x.id != e.line.id) }
      have h2 : (st.active.filter (fun x => x.id != e.line.id)).length ≤ st.active.length :=
        List.length_filter_le _ _
      have h3 := Abound_mono (S := countStarts pts) h2
      refine le_trans h1 (le_trans ?_ (Nat.add_le_add_left h3 st.tests.length))
      exact le_refl _
    · have hcount : countStarts (e :: pts) = countStarts pts := by
        simp [countStarts, List.countP_cons, isStart, he]
      rw [hcount, sweepStep_inter st e he]
      exact ih st

/-- The tag written by `sweepEvents` is `Start` exactly when the comparison
holds. -/
theorem isStart_tag (ln : Line) (pt : Point) (c : Prop) [Decidable c] :
    isStart ⟨ln, pt, if c then EventType.Start else EventType.End⟩ = decide c := by
  split_ifs with h <;> simp [isStart, h]

/-- Each segment contributes at most one `Start` event (`a.y > b.y` and
`b.y > a.y` cannot hold together). -/
theorem countStarts_sweepEvents_le (lines : List Line) :
    countStarts (sweepEvents lines) ≤ lines.length := by
  induction lines with
  | nil => simp [sweepEvents, countStarts]
  | cons l ls ih =>
    have h1 : countStarts (sweepEvents (l :: ls)) =
        countStarts (sweepEvents ls) +
          ((if l.b.y < l.a.y then 1 else 0) + (if l.a.y < l.b.y then 1 else 0)) := by
      simp only [sweepEvents, List.flatMap_cons, List.cons_append, List.nil_append,
        countStarts, List.countP_cons, isStart_tag, decide_eq_true_eq]
      split_ifs <;> omega
    rw [h1]
    have h2 : (if l.b.y < l.a.y then 1 else 0) + (if l.a.y < l.b.y then 1 else 0) ≤ 1 := by
      split_ifs with ha hb
      · exact absurd hb (not_lt.mpr ha.le)
      · omega
      · omega
      · omega
    simp only [List.length_cons]
    omega

/-- `num_tests` bound for the active-set sweep. -/
theorem sweepLine_tests_le (lines : List Line) :
    (sweepLine_report lines).num_tests ≤ lines.length * (lines.length - 1) / 2 := by
  have h1 := sweep_foldl_tests (sortYDesc (sweepEvents lines)) ⟨[], [], []⟩
  have h2 : countStarts (sortYDesc (sweepEvents lines)) = countStarts (sweepEvents lines) :=
    (sortYDesc_perm (sweepEvents lines)).countP_eq _
  have h3 := countStarts_sweepEvents_le lines
  have h4 : Abound (countStarts (sortYDesc (sweepEvents lines))) 0 ≤
      lines.length * (lines.length - 1) / 2 := by
    rw [h2]; exact Abound_le h3
  simp only [sweepLine_report, sweepRun] at *
  simp only [List.length_nil, Nat.zero_add] at h1
  omega

/-! ### Status-ordered sweep strategy (`SmartSweepLineIntersector`)

The source keeps the event queue in a `BTreeSet<SweepLinePoint>` whose `Ord`
is `other.point.y.total_cmp(&self.point.y)`: the least element is the one
with the greatest `y`, and two events are `Ord`-equal exactly when their `y`
coordinates are equal.  We model the set as a list sorted by `y` strictly
descending; `insert` keeps the existing element when an `Ord`-equal one is
present (Rust's `BTreeSet::insert` never replaces).  Likewise the status
`BTreeSet<SweepLineStatus>` orders by `point.x` ascending. -/

/-- `intersect::PointKind`. -/
inductive PointKind where
  | Start
  | End
deriving DecidableEq

/-- `intersect::SweepLineStatus`. -/
structure SweepLineStatus where
  line : Line
  point : Point
  kind : PointKind
deriving DecidableEq

/-- `event_queue.insert(e)` on the queue sorted by `y` descending. -/
def queueInsert (e : SweepLinePoint) : List SweepLinePoint → List SweepLinePoint
  | [] => [e]
  | x :: xs =>
    if x.point.y < e.point.y then e :: x :: xs
    else if x.point.y = e.point.y then x :: xs
    else x :: queueInsert e xs

/-- `status.insert(s)` on the status list sorted by `x` ascending. -/
def statusInsert (s : SweepLineStatus) : List SweepLineStatus → List SweepLineStatus
  | [] => [s]
  | x :: xs =>
    if s.point.x < x.point.x then s :: x :: xs
    else if s.point.x = x.point.x then x :: xs
    else x :: statusInsert s xs

/-- `get_neighbors`: the greatest status entry with `x < point.x - 0.01`
(`status.range(..s_left).next_back()`) and the least entry with
`x ≥ point.x + 0.01` (`status.range(s_right..).next()`). -/
def get_neighbors (p : Point) (status : List SweepLineStatus) :
    Option SweepLineStatus × Option SweepLineStatus :=
  ((status.filter (fun s => s.point.x < p.x - 1/100)).getLast?,
   (status.filter (fun s => p.x + 1/100 ≤ s.point.x)).head?)

/-- `test_neighbour`: run the kernel predicate and, on success, push a
synthetic `Intersection` event (with a `Default` line) into the queue. -/
def test_neighbour (l1 l2 : Line) (queue : List SweepLinePoint) :
    Option Intersection × List SweepLinePoint :=
  match line_intersect l1 l2 with
  | some i => (some i, queueInsert ⟨default, i.point, EventType.Intersection⟩ queue)
  | none => (none, queue)

/-- Working state of `SmartSweepLineIntersector::report_intersections`.
`popped` is a ghost trace of the events already consumed by `pop_first`. -/
structure SmartState where
  queue : List SweepLinePoint
  status : List SweepLineStatus
  intersections : List Intersection
  tests : List (Line × Line)
  popped : List SweepLinePoint
deriving DecidableEq

/-- One `if let Some(neighbor) = ...` block of the `Start` arm: when a
neighbor exists, count one test and run `test_neighbour` (which may push an
`Intersection` event); returns the new queue, the tested pairs and the
recorded intersections. -/
def neighborStep (e : SweepLinePoint) (rest : List SweepLinePoint)
    (nbr : Option SweepLineStatus) :
    List SweepLinePoint × List (Line × Line) × List Intersection :=
  match nbr with
  | some nb =>
    let r := test_neighbour e.line nb.line rest
    (r.2, [(e.line, nb.line)], r.1.toList)
  | none => (rest, [], [])

/-- The `Start` arm of the event loop: insert into the status, query both
neighbors, test the left one then the right one. -/
def startCase (st : SmartState) (e : SweepLinePoint) (rest : List SweepLinePoint) :
    SmartState :=
  let status' := statusInsert ⟨e.line, e.point, PointKind.Start⟩ st.status
  let L := neighborStep e rest (get_neighbors e.point status').1
  let R := neighborStep e L.1 (get_neighbors e.point status').2
  { queue := R.1,
    status := status',
    intersections := st.intersections ++ L.2.2 ++ R.2.2,
    tests := st.tests ++ L.2.1 ++ R.2.1,
    popped := st.popped ++ [e] }

/-- One turn of `while let Some(event) = event_queue.pop_first()`:
`End` and `Intersection` events are no-ops (beside being consumed). -/
def smartStep (st : SmartState) : Option SmartState :=
  match st.queue with
  | [] => none
  | e :: rest =>
    match e.event with
    | EventType.Start => some (startCase st e rest)
    | EventType.End => some { st with queue := rest, popped := st.popped ++ [e] }
    | EventType.Intersection => some { st with queue := rest, popped := st.popped ++ [e] }

/-- Termination measure: processing a `Start` event removes it and inserts at
most two non-`Start` events; other events are simply removed. -/
def smartMeasure (st : SmartState) : ℕ :=
  2 * countStarts st.queue + st.queue.length

/-- The event loop, driven by fuel.  `smartLoopF_drain` below shows that
`smartMeasure` fuel always empties the queue, so this is the loop's exact
behaviour. -/
def smartLoopF : ℕ → SmartState → SmartState
  | 0, st => st
  | fuel + 1, st =>
    match smartStep st with
    | none => st
    | some st' => smartLoopF fuel st'

/-- The initial event queue: both endpoints of every segment, tagged exactly
as in the active-set variant. -/
def initQueue (lines : List Line) : List SweepLinePoint :=
  lines.foldl
    (fun q l =>
      queueInsert ⟨l, l.b, if l.a.y < l.b.y then EventType.Start else EventType.End⟩
        (queueInsert ⟨l, l.a, if l.b.y < l.a.y then EventType.Start else EventType.End⟩ q))
    []

/-- The final state of `SmartSweepLineIntersector::report_intersections`. -/
def smartRun (lines : List Line) : SmartState :=
  smartLoopF (smartMeasure ⟨initQueue lines, [], [], [], []⟩)
    ⟨initQueue lines, [], [], [], []⟩

/-- `SmartSweepLineIntersector::report_intersections`. -/
def smartSweep_report (lines : List Line) : Report :=
  ⟨(smartRun lines).intersections, (smartRun lines).tests.length⟩

theorem countStarts_cons (x : SweepLinePoint) (l : List SweepLinePoint) :
    countStarts (x :: l) = countStarts l + (if isStart x then 1 else 0) := by
  simp [countStarts, List.countP_cons]

theorem queueInsert_length (e : SweepLinePoint) (q : List SweepLinePoint) :
    (queueInsert e q).length ≤ q.length + 1 := by
  induction q with
  | nil => simp [queueInsert]
  | cons x xs ih =>
    rw [queueInsert]
    split_ifs <;> simp only [List.length_cons] <;> omega

theorem countStarts_queueInsert (e : SweepLinePoint) (q : List SweepLinePoint) :
    countStarts (queueInsert e q) ≤
      countStarts q + (if isStart e then 1 else 0) := by
  induction q with
  | nil =>
    rw [show queueInsert e [] = [e] from rfl, countStarts_cons]
  | cons x xs ih =>
    by_cases h1 : x.point.y < e.point.y
    · rw [queueInsert, if_pos h1, countStarts_cons e (x :: xs)]
    · by_cases h2 : x.point.y = e.point.y
      · rw [queueInsert, if_neg h1, if_pos h2]
        exact Nat.le_add_right _ _
      · rw [queueInsert, if_neg h1, if_neg h2,
          countStarts_cons x (queueInsert e xs), countStarts_cons x xs]
        omega

theorem test_neighbour_queue (l1 l2 : Line) (q : List SweepLinePoint) :
    (test_neighbour l1 l2 q).2.length ≤ q.length + 1 ∧
      countStarts (test_neighbour l1 l2 q).2 ≤ countStarts q := by
  unfold test_neighbour
  rcases h : line_intersect l1 l2 with _ | i
  · exact ⟨Nat.le_succ _, le_refl _⟩
  · refine ⟨queueInsert_length _ _, ?_⟩
    show countStarts (queueInsert ⟨default, i.point, EventType.Intersection⟩ q) ≤
      countStarts q
    have := countStarts_queueInsert ⟨default, i.point, EventType.Intersection⟩ q
    simpa [isStart] using this

theorem neighborStep_queue (e : SweepLinePoint) (rest : List SweepLinePoint)
    (nbr : Option SweepLineStatus) :
    (neighborStep e rest nbr).1.length ≤ rest.length + 1 ∧
      countStarts (neighborStep e rest nbr).1 ≤ countStarts rest := by
  rcases nbr with _ | nb
  · exact ⟨by simp [neighborStep], by simp [neighborStep]⟩
  · have := test_neighbour_queue e.line nb.line rest
    exact ⟨this.1, this.2⟩

theorem neighborStep2_queue (e : SweepLinePoint) (rest : List SweepLinePoint)
    (nb1 nb2 : Option SweepLineStatus) :
    (neighborStep e (neighborStep e rest nb1).1 nb2).1.length ≤ rest.length + 2 ∧
      countStarts (neighborStep e (neighborStep e rest nb1).1 nb2).1 ≤ countStarts rest := by
  have h1 := neighborStep_queue e rest nb1
  have h2 := neighborStep_queue e (neighborStep e rest nb1).1 nb2
  exact ⟨by omega, le_trans h2.2 h1.2⟩

theorem startCase_queue (st : SmartState) (e : SweepLinePoint)
    (rest : List SweepLinePoint) :
    (startCase st e rest).queue.length ≤ rest.length + 2 ∧
      countStarts (startCase st e rest).queue ≤ countStarts rest :=
  neighborStep2_queue e rest
    (get_neighbors e.point (statusInsert ⟨e.line, e.point, PointKind.Start⟩ st.status)).1
    (get_neighbors e.point (statusInsert ⟨e.line, e.point, PointKind.Start⟩ st.status)).2

/-- The measure strictly decreases at every step of the loop. -/
theorem smartStep_measure {st st' : SmartState} (h : smartStep st = some st') :
    smartMeasure st' < smartMeasure st := by
  rcases hq : st.queue with _ | ⟨e, rest⟩
  · simp [smartStep, hq] at h
  · rcases he : e.event with _ | _ | _ <;>
      simp only [smartStep, hq, he, Option.some.injEq] at h <;> subst h
    · -- Start
      have hq1 := startCase_queue st e rest
      have hcs : countStarts (e :: rest) = countStarts rest + 1 := by
        rw [countStarts_cons]
        simp [isStart, he]
      rw [smartMeasure, smartMeasure, hq, hcs]
      simp only [List.length_cons]
      omega
    · -- End
      have hcs : countStarts (e :: rest) = countStarts rest := by
        rw [countStarts_cons]
        simp [isStart, he]
      rw [smartMeasure, smartMeasure, hq, hcs]
      dsimp only
      simp only [List.length_cons]
      omega
    · -- Intersection
      have hcs : countStarts (e :: rest) = countStarts rest := by
        rw [countStarts_cons]
        simp [isStart, he]
      rw [smartMeasure, smartMeasure, hq, hcs]
      dsimp only
      simp only [List.length_cons]
      omega

/-- With `smartMeasure` fuel the loop always drains the queue: the fuelled
loop computes exactly what the source's `while` loop computes. -/
theorem smartLoopF_drain (fuel : ℕ) :
    ∀ st : SmartState, smartMeasure st ≤ fuel → (smartLoopF fuel st).queue = [] := by
  induction fuel with
  | zero =>
    intro st h
    rw [smartLoopF]
    rw [smartMeasure] at h
    exact List.length_eq_zero.mp (by omega)
  | succ fuel ih =>
    intro st h
    rw [smartLoopF]
    rcases hs : smartStep st with _ | st'
    · rcases hq : st.queue with _ | ⟨e, rest⟩
      · rfl
      · exfalso
        rcases he : e.event with _ | _ | _ <;> simp [smartStep, hq, he] at hs
    · have := smartStep_measure hs
      exact ih st' (by omega)

theorem statusInsert_length (s : SweepLineStatus) (st : List SweepLineStatus) :
    (statusInsert s st).length ≤ st.length + 1 := by
  induction st with
  | nil => simp [statusInsert]
  | cons x xs ih =>
    rw [statusInsert]
    split_ifs <;> simp only [List.length_cons] <;> omega

/-- The inserted status set always holds an entry at the inserted `x`
(either the new entry, or the `Ord`-equal entry that was kept). -/
theorem statusInsert_mem_x (s : SweepLineStatus) (st : List SweepLineStatus) :
    ∃ t ∈ statusInsert s st, t.point.x = s.point.x := by
  induction st with
  | nil => exact ⟨s, by simp [statusInsert]⟩
  | cons x xs ih =>
    by_cases h1 : s.point.x < x.point.x
    · exact ⟨s, by rw [statusInsert, if_pos h1]; simp, rfl⟩
    · by_cases h2 : s.point.x = x.point.x
      · exact ⟨x, by rw [statusInsert, if_neg h1, if_pos h2]; simp, h2.symm⟩
      · obtain ⟨t, ht, hx⟩ := ih
        exact ⟨t, by rw [statusInsert, if_neg h1, if_neg h2]; simp [ht], hx⟩

/-- Two pointwise-exclusive filters of a list cannot jointly exceed its
length. -/
theorem length_filter_disjoint (p q : α → Bool) (l : List α)
    (hpq : ∀ x, ¬(p x = true ∧ q x = true)) :
    (l.filter p).length + (l.filter q).length ≤ l.length := by
  induction l with
  | nil => simp
  | cons x xs ih =>
    rcases hp : p x with _ | _ <;> rcases hq' : q x with _ | _ <;>
      simp only [List.filter_cons, hp, hq', List.length_cons, if_true, if_false,
        Bool.false_eq_true, ite_true, ite_false] <;>
      try omega
    exact absurd ⟨hp, hq'⟩ (hpq x)

/-- Sharpened form: an element satisfying neither filter makes the bound
strict. -/
theorem length_filter_disjoint_mem (p q : α → Bool) (l : List α) (m : α)
    (hm : m ∈ l) (hpm : p m = false) (hqm : q m = false)
    (hpq : ∀ x, ¬(p x = true ∧ q x = true)) :
    (l.filter p).length + (l.filter q).length + 1 ≤ l.length := by
  induction l with
  | nil => cases hm
  | cons x xs ih =>
    rcases List.mem_cons.mp hm with hx | hx
    · subst hx
      have h1 := length_filter_disjoint p q xs hpq
      simp only [List.filter_cons, hpm, hqm, List.length_cons,
        Bool.false_eq_true, ite_false]
      omega
    · have h1 := ih hx
      rcases hp : p x with _ | _ <;> rcases hq' : q x with _ | _ <;>
        simp only [List.filter_cons, hp, hq', List.length_cons, if_true, if_false,
          Bool.false_eq_true, ite_true, ite_false] <;>
        try omega
      exact absurd ⟨hp, hq'⟩ (hpq x)

theorem neighborStep_tests (e : SweepLinePoint) (rest : List SweepLinePoint)
    (nbr : Option SweepLineStatus) :
    (neighborStep e rest nbr).2.1.length = if nbr.isSome then 1 else 0 := by
  rcases nbr with _ | nb
  · rfl
  · rfl

/-- The number of tests a `Start` event performs is bounded both by 2 and by
the size of the status structure before the insertion: the inserted entry's
own `x` satisfies neither neighbor filter, and the two filters are
exclusive. -/
theorem startCase_tests (st : SmartState) (e : SweepLinePoint)
    (rest : List SweepLinePoint) :
    (startCase st e rest).tests.length ≤
      st.tests.length + min 2 st.status.length := by
  have htests : (startCase st e rest).tests =
      st.tests ++
        (neighborStep e rest
          (get_neighbors e.point (statusInsert ⟨e.line, e.point, PointKind.Start⟩ st.status)).1).2.1 ++
        (neighborStep e
          (neighborStep e rest
            (get_neighbors e.point (statusInsert ⟨e.line, e.point, PointKind.Start⟩ st.status)).1).1
          (get_neighbors e.point (statusInsert ⟨e.line, e.point, PointKind.Start⟩ st.status)).2).2.1 := rfl
  rw [htests]
  simp only [List.length_append, neighborStep_tests]
  set status' := statusInsert ⟨e.line, e.point, PointKind.Start⟩ st.status with hstatus
  set pL : SweepLineStatus → Bool := fun s => decide (s.point.x < e.point.x - 1/100) with hpL
  set pR : SweepLineStatus → Bool := fun s => decide (e.point.x + 1/100 ≤ s.point.x) with hpR
  have hnb : get_neighbors e.point status' =
      ((status'.filter pL).getLast?, (status'.filter pR).head?) := rfl
  have hdisj : ∀ s : SweepLineStatus, ¬(pL s = true ∧ pR s = true) := by
    intro s hs
    rw [hpL] at hs
    rw [hpR] at hs
    have h1 := of_decide_eq_true hs.1
    have h2 := of_decide_eq_true hs.2
    linarith
  obtain ⟨mid, hmid, hmidx⟩ := statusInsert_mem_x ⟨e.line, e.point, PointKind.Start⟩ st.status
  have hmL : pL mid = false := by
    rw [hpL]
    simp only [decide_eq_false_iff_not, not_lt, hmidx]
    linarith
  have hmR : pR mid = false := by
    rw [hpR]
    simp only [decide_eq_false_iff_not, not_le, hmidx]
    linarith
  have hlen := length_filter_disjoint_mem pL pR status' mid hmid hmL hmR hdisj
  have hsl : status'.length ≤ st.status.length + 1 := statusInsert_length _ _
  have hL : ((status'.filter pL).getLast?.isSome = true → 1 ≤ (status'.filter pL).length) := by
    intro hx
    rcases hfl : status'.filter pL with _ | ⟨a, as⟩
    · rw [hfl] at hx
      simp at hx
    · simp [hfl]
  have hR : ((status'.filter pR).head?.isSome = true → 1 ≤ (status'.filter pR).length) := by
    intro hx
    rcases hfl : status'.filter pR with _ | ⟨a, as⟩
    · rw [hfl] at hx
      simp at hx
    · simp [hfl]
  rw [hnb]
  rcases hL? : (status'.filter pL).getLast?.isSome with _ | _ <;>
    rcases hR? : (status'.filter pR).head?.isSome with _ | _ <;>
    simp only [if_true, if_false, Bool.false_eq_true, ite_true, ite_false]
  · omega
  · have := hR hR?
    omega
  · have := hL hL?
    omega
  · have h1 := hL hL?
    have h2 := hR hR?
    omega

/-- `Bbound S m = min 2 m + min 2 (m+1) + ...`: bound for the tests of `S`
start events beginning with a status structure of size `m`. -/
def Bbound : ℕ → ℕ → ℕ
  | 0, _ => 0
  | S + 1, m => min 2 m + Bbound S (m + 1)

theorem Bbound_mono {S : ℕ} {a b : ℕ} (h : a ≤ b) : Bbound S a ≤ Bbound S b := by
  induction S generalizing a b with
  | zero => exact le_refl _
  | succ S ih =>
    exact Nat.add_le_add (min_le_min (le_refl 2) h) (ih (by omega))

theorem Bbound_mono_left {S T : ℕ} (a : ℕ) (h : S ≤ T) : Bbound S a ≤ Bbound T a := by
  induction T generalizing S a with
  | zero =>
    have hS : S = 0 := Nat.le_zero.mp h
    subst hS
    exact le_refl _
  | succ T ih =>
    cases S with
    | zero => exact Nat.zero_le _
    | succ S => exact Nat.add_le_add_left (ih _ (by omega)) _

theorem Bbound_le_Abound (S m : ℕ) : Bbound S m ≤ Abound S m := by
  induction S generalizing m with
  | zero => exact le_refl _
  | succ S ih => exact Nat.add_le_add (Nat.min_le_right _ _) (ih (m + 1))

theorem smartLoopF_succ_none {st : SmartState} (fuel : ℕ)
    (h : smartStep st = none) : smartLoopF (fuel + 1) st = st := by
  rw [smartLoopF, h]

theorem smartLoopF_succ_some {st st' : SmartState} (fuel : ℕ)
    (h : smartStep st = some st') :
    smartLoopF (fuel + 1) st = smartLoopF fuel st' := by
  rw [smartLoopF, h]

/-- Loop invariant: the tests accumulated by the remaining run are bounded by
`Bbound` of the remaining start events and current status size. -/
theorem smartLoopF_tests (fuel : ℕ) :
    ∀ st : SmartState, ((smartLoopF fuel st).tests).length ≤
      st.tests.length + Bbound (countStarts st.queue) st.status.length := by
  induction fuel with
  | zero =>
    intro st
    rw [smartLoopF]
    exact Nat.le_add_right _ _
  | succ fuel ih =>
    intro st
    rcases hs : smartStep st with _ | st'
    · rw [smartLoopF_succ_none fuel hs]
      exact Nat.le_add_right _ _
    · rw [smartLoopF_succ_some fuel hs]
      rcases hq : st.queue with _ | ⟨e, rest⟩
      · simp [smartStep, hq] at hs
      · rcases he : e.event with _ | _ | _ <;>
          simp only [smartStep, hq, he, Option.some.injEq] at hs <;> subst hs
        · -- Start
          have h1 := ih (startCase st e rest)
          have h2 := startCase_tests st e rest
          have h3 := (startCase_queue st e rest).2
          have h4 : (startCase st e rest).status.length ≤ st.status.length + 1 := by
            have heq : (startCase st e rest).status =
                statusInsert ⟨e.line, e.point, PointKind.Start⟩ st.status := rfl
            rw [heq]
            exact statusInsert_length _ _
          have h5 : Bbound (countStarts (startCase st e rest).queue)
              (startCase st e rest).status.length ≤
                Bbound (countStarts rest) (st.status.length + 1) :=
            le_trans (Bbound_mono_left _ h3) (Bbound_mono h4)
          have h6 : countStarts (e :: rest) = countStarts rest + 1 := by
            rw [countStarts_cons]
            simp [isStart, he]
          rw [h6, Bbound]
          omega
        · -- End
          have h6 : countStarts (e :: rest) = countStarts rest := by
            rw [countStarts_cons]
            simp [isStart, he]
          rw [h6]
          exact ih { st with queue := rest, popped := st.popped ++ [e] }
        · -- Intersection
          have h6 : countStarts (e :: rest) = countStarts rest := by
            rw [countStarts_cons]
            simp [isStart, he]
          rw [h6]
          exact ih { st with queue := rest, popped := st.popped ++ [e] }

/-- At most one of the two events of a segment inserted by `initQueue` is a
`Start` event. -/
theorem countStarts_initQueue_le (lines : List Line) :
    countStarts (initQueue lines) ≤ lines.length := by
  suffices h : ∀ q : List SweepLinePoint,
      countStarts (lines.foldl
        (fun q l =>
          queueInsert ⟨l, l.b, if l.a.y < l.b.y then EventType.Start else EventType.End⟩
            (queueInsert ⟨l, l.a, if l.b.y < l.a.y then EventType.Start else EventType.End⟩ q))
        q) ≤ countStarts q + lines.length by
    simpa [initQueue, countStarts] using h []
  induction lines with
  | nil => intro q; simp
  | cons l ls ih =>
    intro q
    rw [List.foldl_cons]
    refine le_trans (ih _) ?_
    have h1 := countStarts_queueInsert
      ⟨l, l.a, if l.b.y < l.a.y then EventType.Start else EventType.End⟩ q
    have h2 := countStarts_queueInsert
      ⟨l, l.b, if l.a.y < l.b.y then EventType.Start else EventType.End⟩
      (queueInsert ⟨l, l.a, if l.b.y < l.a.y then EventType.Start else EventType.End⟩ q)
    simp only [isStart_tag, decide_eq_true_eq] at h1 h2
    have h3 : (if l.b.y < l.a.y then 1 else 0) + (if l.a.y < l.b.y then 1 else 0) ≤ 1 := by
      split_ifs with ha hb
      · exact absurd hb (not_lt.mpr ha.le)
      · omega
      · omega
      · omega
    simp only [List.length_cons]
    omega

/-- `num_tests` bound for the status-ordered sweep. -/
theorem smartSweep_tests_le (lines : List Line) :
    (smartSweep_report lines).num_tests ≤ lines.length * (lines.length - 1) / 2 := by
  have h1 := smartLoopF_tests (smartMeasure ⟨initQueue lines, [], [], [], []⟩)
    ⟨initQueue lines, [], [], [], []⟩
  have h2 := countStarts_initQueue_le lines
  have h3 : Bbound (countStarts (initQueue lines)) 0 ≤
      lines.length * (lines.length - 1) / 2 :=
    le_trans (Bbound_le_Abound _ _) (Abound_le h2)
  simp only [smartSweep_report, smartRun]
  simp only [List.length_nil, Nat.zero_add] at h1
  omega

/-! ### Concrete segments used by witnesses and counterexamples -/

/-- A segment from `(0,2)` to `(2,0)`. -/
def dA : Line := ⟨1, ⟨0, 2⟩, ⟨2, 0⟩⟩

/-- A segment from `(2,2)` to `(0,0)`; crosses `dA` at `(1,1)`. -/
def dB : Line := ⟨2, ⟨2, 2⟩, ⟨0, 0⟩⟩

theorem dA_id : dA.id = 1 := rfl
theorem dA_a : dA.a = ⟨0, 2⟩ := rfl
theorem dA_b : dA.b = ⟨2, 0⟩ := rfl
theorem dB_id : dB.id = 2 := rfl
theorem dB_a : dB.a = ⟨2, 2⟩ := rfl
theorem dB_b : dB.b = ⟨0, 0⟩ := rfl

theorem li_dA_dB : line_intersect dA dB = some ⟨dA, dB, ⟨1, 1⟩⟩ := by
  rw [line_intersect_char]
  norm_num [rsOf, qprOf, qpsOf, tOf, uOf, ptOf, cross2d, Point.sub, Point.add,
    Point.scale, eps, dA, dB]

theorem li_dB_dA : line_intersect dB dA = some ⟨dB, dA, ⟨1, 1⟩⟩ := by
  rw [line_intersect_char]
  norm_num [rsOf, qprOf, qpsOf, tOf, uOf, ptOf, cross2d, Point.sub, Point.add,
    Point.scale, eps, dA, dB]

/-! ### Claim theorems -/

/-- Claim C7: `line_intersect` is symmetric — swapping the arguments either
leaves both calls without a result, or produces intersection records with the
identical point (in exact arithmetic the two points are equal, hence in
particular within epsilon). -/
theorem c7_line_intersect_symmetric (l1 l2 : Line) :
    (line_intersect l1 l2 = none ∧ line_intersect l2 l1 = none) ∨
      (∃ i j : Intersection, line_intersect l1 l2 = some i ∧
        line_intersect l2 l1 = some j ∧ i.point = j.point) := by
  rcases h : line_intersect l1 l2 with _ | i
  · left
    refine ⟨rfl, ?_⟩
    rw [line_intersect_swap, h]
    rfl
  · right
    refine ⟨i, ⟨l2, l1, i.point⟩, rfl, ?_, rfl⟩
    rw [line_intersect_swap, h]
    rfl

/-- Claim C8: whenever the two direction vectors are parallel or collinear up
to tolerance (`|cross(r,s)| < ε`), `line_intersect` reports nothing — this
covers both the collinear and the parallel-disjoint early returns, and also
the fall-through case `|cross(r,s)| = ε` rejected by the final guard. -/
theorem c8_parallel_reports_none (l1 l2 : Line) (h : |rsOf l1 l2| < eps) :
    line_intersect l1 l2 = none := by
  rw [line_intersect_char, if_neg]
  rintro ⟨hgt, -⟩
  exact absurd hgt (not_lt.mpr h.le)

/-- Witness for C8 at the parallel pair `(0,0)-(1,0)` and `(0,1)-(1,1)`. -/
theorem c8_witness :
    |rsOf ⟨1, ⟨0, 0⟩, ⟨1, 0⟩⟩ ⟨2, ⟨0, 1⟩, ⟨1, 1⟩⟩| < eps ∧
      line_intersect ⟨1, ⟨0, 0⟩, ⟨1, 0⟩⟩ ⟨2, ⟨0, 1⟩, ⟨1, 1⟩⟩ = none :=
  ⟨by norm_num [rsOf, cross2d, Point.sub, eps],
   c8_parallel_reports_none _ _ (by norm_num [rsOf, cross2d, Point.sub, eps])⟩

/-- Claim C6: for every input, both sweep strategies perform at most
`n·(n-1)/2` pairwise tests. -/
theorem c6_num_tests_le (lines : List Line) :
    (sweepLine_report lines).num_tests ≤ lines.length * (lines.length - 1) / 2 ∧
      (smartSweep_report lines).num_tests ≤ lines.length * (lines.length - 1) / 2 :=
  ⟨sweepLine_tests_le lines, smartSweep_tests_le lines⟩

/-- Claim C2 (code bug): the brute-force strategy declares `num_tests` and
never increments it, so the report of two crossing segments carries
`num_tests = 0` instead of the specified `2·(2-1)/2 = 1`. -/
theorem c2_brute_num_tests_zero :
    bruteForce_report [dA, dB] = some ⟨[⟨dA, dB, ⟨1, 1⟩⟩], 0⟩ := by
  rw [bruteForce_report, if_neg (by norm_num)]
  simp [bruteIntersections, show brutePairs 2 = [(0, 1)] from rfl, li_dA_dB]

/-- Claim C3 (code bug): on the empty slice the brute-force strategy
evaluates `0..lines.len()-1`, whose bound underflows `usize` (modelled as
`none`) instead of returning an empty report; a singleton yields the empty
report with `num_tests = 0`, and both sweep strategies do degrade gracefully
on both inputs. -/
theorem c3_small_inputs :
    bruteForce_report ([] : List Line) = none ∧
      bruteForce_report [⟨1, ⟨0, 0⟩, ⟨1, 1⟩⟩] = some ⟨[], 0⟩ ∧
      sweepLine_report ([] : List Line) = ⟨[], 0⟩ ∧
      smartSweep_report ([] : List Line) = ⟨[], 0⟩ ∧
      sweepLine_report [⟨1, ⟨0, 0⟩, ⟨1, 1⟩⟩] = ⟨[], 0⟩ ∧
      smartSweep_report [⟨1, ⟨0, 0⟩, ⟨1, 1⟩⟩] = ⟨[], 0⟩ := by
  refine ⟨rfl, ?_, rfl, rfl, ?_, ?_⟩
  · rw [bruteForce_report, if_neg (by norm_num)]
    simp [bruteIntersections, show brutePairs 1 = [] from rfl]
  · norm_num [sweepLine_report, sweepRun, sweepEvents, sortYDesc, insertYDesc,
      sweepStep]
  · norm_num [smartSweep_report, smartRun, smartMeasure, initQueue, queueInsert,
      countStarts, List.countP_cons, isStart, smartLoopF, smartStep, startCase,
      neighborStep, get_neighbors, statusInsert]

/-- Counterexample to claim C4: for the pair below the computed parameters
are `t = 199/200` and `u = 1/2`; `t` does not lie in `(ε, 1-ε)` (because
`199/200 > 99/100`), yet `line_intersect` does report the intersection — the
code's range test is `t < 1.0`, not `t < 1-ε`. -/
theorem c4_counterexample :
    eps ≤ |rsOf ⟨1, ⟨0, 0⟩, ⟨200, 0⟩⟩ ⟨2, ⟨199, -1⟩, ⟨199, 1⟩⟩| ∧
      tOf ⟨1, ⟨0, 0⟩, ⟨200, 0⟩⟩ ⟨2, ⟨199, -1⟩, ⟨199, 1⟩⟩ = 199 / 200 ∧
      ¬(tOf ⟨1, ⟨0, 0⟩, ⟨200, 0⟩⟩ ⟨2, ⟨199, -1⟩, ⟨199, 1⟩⟩ < 1 - eps) ∧
      line_intersect ⟨1, ⟨0, 0⟩, ⟨200, 0⟩⟩ ⟨2, ⟨199, -1⟩, ⟨199, 1⟩⟩ =
        some ⟨⟨1, ⟨0, 0⟩, ⟨200, 0⟩⟩, ⟨2, ⟨199, -1⟩, ⟨199, 1⟩⟩, ⟨199, 0⟩⟩ := by
  refine ⟨?_, ?_, ?_, ?_⟩
  · norm_num [rsOf, cross2d, Point.sub, eps]
  · norm_num [tOf, rsOf, qpsOf, cross2d, Point.sub, eps]
  · norm_num [tOf, rsOf, qpsOf, cross2d, Point.sub, eps]
  · rw [line_intersect_char]
    norm_num [rsOf, qprOf, qpsOf, tOf, uOf, ptOf, cross2d, Point.sub, Point.add,
      Point.scale, eps]

/-- Claim C4 as amended: when `|cross(r,s)| > ε` (strictly), the predicate
reports exactly when both parameters lie in the open interval `(ε, 1)` — not
`(ε, 1-ε)` — and the reported point is `p + t·r`. -/
theorem c4_amended_param_range (l1 l2 : Line) (h : eps < |rsOf l1 l2|) :
    line_intersect l1 l2 =
      if eps < tOf l1 l2 ∧ tOf l1 l2 < 1 ∧ eps < uOf l1 l2 ∧ uOf l1 l2 < 1 then
        some ⟨l1, l2, ptOf l1 l2⟩
      else none := by
  rw [line_intersect_char]
  by_cases hc : eps < tOf l1 l2 ∧ tOf l1 l2 < 1 ∧ eps < uOf l1 l2 ∧ uOf l1 l2 < 1
  · rw [if_pos ⟨h, hc.1, hc.2.1, hc.2.2.1, hc.2.2.2⟩, if_pos hc]
  · rw [if_neg ?_, if_neg hc]
    rintro ⟨-, h1, h2, h3, h4⟩
    exact hc ⟨h1, h2, h3, h4⟩

/-- Witness for the amended C4 at the crossing pair `dA`, `dB`. -/
theorem c4_witness :
    eps < |rsOf dA dB| ∧
      line_intersect dA dB =
        (if eps < tOf dA dB ∧ tOf dA dB < 1 ∧ eps < uOf dA dB ∧ uOf dA dB < 1 then
          some ⟨dA, dB, ptOf dA dB⟩
        else none) :=
  ⟨by norm_num [rsOf, cross2d, Point.sub, eps, dA, dB],
   c4_amended_param_range dA dB (by norm_num [rsOf, cross2d, Point.sub, eps, dA, dB])⟩

/-! ### Horizontal segments in the active-set sweep (C10) -/

theorem sweepEvents_mem_line {lines : List Line} {ev : SweepLinePoint}
    (h : ev ∈ sweepEvents lines) :
    ev.line ∈ lines ∧
      ((ev.point = ev.line.a ∧
          ev.event = if ev.line.b.y < ev.line.a.y then EventType.Start else EventType.End) ∨
       (ev.point = ev.line.b ∧
          ev.event = if ev.line.a.y < ev.line.b.y then EventType.Start else EventType.End)) := by
  rw [sweepEvents, List.mem_flatMap] at h
  obtain ⟨l, hl, hev⟩ := h
  rcases List.mem_cons.mp hev with hev | hev
  · subst hev
    exact ⟨hl, Or.inl ⟨rfl, rfl⟩⟩
  · rcases List.mem_cons.mp hev with hev | hev
    · subst hev
      exact ⟨hl, Or.inr ⟨rfl, rfl⟩⟩
    · cases hev

/-- Every `Start` event's segment has endpoints with distinct `y`. -/
theorem sweepEvents_start_nonhoriz {lines : List Line} {ev : SweepLinePoint}
    (h : ev ∈ sweepEvents lines) (hs : ev.event = EventType.Start) :
    ev.line.a.y ≠ ev.line.b.y := by
  rcases (sweepEvents_mem_line h).2 with ⟨-, htag⟩ | ⟨-, htag⟩ <;> rw [htag] at hs
  · split_ifs at hs with hc
    exact ne_of_gt hc
  · split_ifs at hs with hc
    exact ne_of_lt hc

/-- Fold invariant: if every `Start` event in the remaining event list has a
non-horizontal segment, then the active set only ever holds non-horizontal
segments and every tested pair consists of non-horizontal segments. -/
theorem sweep_foldl_nonhoriz (pts : List SweepLinePoint) (st : SweepState)
    (hpts : ∀ ev ∈ pts, ev.event = EventType.Start → ev.line.a.y ≠ ev.line.b.y)
    (hact : ∀ l ∈ st.active, l.a.y ≠ l.b.y)
    (htst : ∀ pr ∈ st.tests, pr.1.a.y ≠ pr.1.b.y ∧ pr.2.a.y ≠ pr.2.b.y) :
    (∀ l ∈ (pts.foldl sweepStep st).active, l.a.y ≠ l.b.y) ∧
      (∀ pr ∈ (pts.foldl sweepStep st).tests,
        pr.1.a.y ≠ pr.1.b.y ∧ pr.2.a.y ≠ pr.2.b.y) := by
  induction pts generalizing st with
  | nil => exact ⟨hact, htst⟩
  | cons e pts ih =>
    rw [List.foldl_cons]
    rcases he : e.event with _ | _ | _
    · rw [sweepStep_start st e he]
      refine ih _ (fun ev hev hs => hpts ev (List.mem_cons_of_mem e hev) hs) ?_ ?_
      · intro l hl
        rcases List.mem_append.mp hl with hl | hl
        · exact hact l hl
        · rcases List.mem_singleton.mp hl with rfl
          exact hpts e (List.mem_cons_self e pts) he
      · intro pr hpr
        rcases List.mem_append.mp hpr with hpr | hpr
        · exact htst pr hpr
        · obtain ⟨o, ho, hpo⟩ := List.mem_map.mp hpr
          subst hpo
          exact ⟨hpts e (List.mem_cons_self e pts) he, hact o ho⟩
    · rw [sweepStep_end st e he]
      refine ih _ (fun ev hev hs => hpts ev (List.mem_cons_of_mem e hev) hs) ?_ htst
      intro l hl
      exact hact l (List.mem_of_mem_filter hl)
    · rw [sweepStep_inter st e he]
      exact ih _ (fun ev hev hs => hpts ev (List.mem_cons_of_mem e hev) hs) hact htst

/-- Claim C10: a segment whose endpoints share their `y` gets two `End`
events and no `Start` event; consequently it is never inserted into the
active set at any point of the run, and no performed test involves it. -/
theorem c10_horizontal_segments_inert (lines : List Line) (h : Line)
    (hmem : h ∈ lines) (hy : h.a.y = h.b.y) :
    ((⟨h, h.a, EventType.End⟩ : SweepLinePoint) ∈ sweepEvents lines ∧
       (⟨h, h.b, EventType.End⟩ : SweepLinePoint) ∈ sweepEvents lines ∧
       (∀ ev ∈ sweepEvents lines, ev.line = h → ev.event = EventType.End)) ∧
      (∀ pre suf : List SweepLinePoint,
        sortYDesc (sweepEvents lines) = pre ++ suf →
        h ∉ (pre.foldl sweepStep ⟨[], [], []⟩).active) ∧
      (∀ pr ∈ (sweepRun lines).tests, pr.1 ≠ h ∧ pr.2 ≠ h) := by
  have hnotlt1 : ¬(h.b.y < h.a.y) := not_lt.mpr hy.le
  have hnotlt2 : ¬(h.a.y < h.b.y) := not_lt.mpr hy.ge
  have hpre : ∀ pre suf : List SweepLinePoint,
      sortYDesc (sweepEvents lines) = pre ++ suf →
      (∀ l ∈ (pre.foldl sweepStep (⟨[], [], []⟩ : SweepState)).active, l.a.y ≠ l.b.y) ∧
        (∀ pr ∈ (pre.foldl sweepStep (⟨[], [], []⟩ : SweepState)).tests,
          pr.1.a.y ≠ pr.1.b.y ∧ pr.2.a.y ≠ pr.2.b.y) := by
    intro pre suf hsplit
    refine sweep_foldl_nonhoriz pre ⟨[], [], []⟩ ?_ (by simp) (by simp)
    intro ev hev hs
    have hev' : ev ∈ sortYDesc (sweepEvents lines) := by
      rw [hsplit]
      exact List.mem_append_left suf hev
    exact sweepEvents_start_nonhoriz
      ((sortYDesc_perm (sweepEvents lines)).mem_iff.mp hev') hs
  refine ⟨⟨?_, ?_, ?_⟩, ?_, ?_⟩
  · rw [sweepEvents, List.mem_flatMap]
    exact ⟨h, hmem, by rw [if_neg hnotlt1]; exact List.mem_cons_self _ _⟩
  · rw [sweepEvents, List.mem_flatMap]
    refine ⟨h, hmem, ?_⟩
    rw [if_neg hnotlt2]
    exact List.mem_cons_of_mem _ (List.mem_cons_self _ _)
  · intro ev hev hline
    rcases (sweepEvents_mem_line hev).2 with ⟨-, htag⟩ | ⟨-, htag⟩ <;> rw [hline] at htag
    · rw [htag, if_neg hnotlt1]
    · rw [htag, if_neg hnotlt2]
  · intro pre suf hsplit hin
    exact (hpre pre suf hsplit).1 h hin hy
  · intro pr hpr
    have h2 := (hpre (sortYDesc (sweepEvents lines)) [] (by simp)).2
    rw [sweepRun] at hpr
    have := h2 pr hpr
    constructor
    · intro hEq
      rw [hEq] at this
      exact this.1 hy
    · intro hEq
      rw [hEq] at this
      exact this.2 hy

/-- Witness for C10: the horizontal segment `(0,1)-(4,1)` in a two-segment
input. -/
theorem c10_witness :
    ((⟨1, ⟨0, 1⟩, ⟨4, 1⟩⟩ : Line) ∈ [(⟨1, ⟨0, 1⟩, ⟨4, 1⟩⟩ : Line), ⟨2, ⟨2, 3⟩, ⟨2, -1⟩⟩] ∧
        (⟨1, ⟨0, 1⟩, ⟨4, 1⟩⟩ : Line).a.y = (⟨1, ⟨0, 1⟩, ⟨4, 1⟩⟩ : Line).b.y) ∧
      (∀ pr ∈ (sweepRun [(⟨1, ⟨0, 1⟩, ⟨4, 1⟩⟩ : Line), ⟨2, ⟨2, 3⟩, ⟨2, -1⟩⟩]).tests,
        pr.1 ≠ ⟨1, ⟨0, 1⟩, ⟨4, 1⟩⟩ ∧ pr.2 ≠ ⟨1, ⟨0, 1⟩, ⟨4, 1⟩⟩) :=
  ⟨⟨List.mem_cons_self _ _, rfl⟩,
   (c10_horizontal_segments_inert _ _ (List.mem_cons_self _ _) rfl).2.2⟩

/-! ### The `End` arm of the status-ordered sweep (C5) -/

/-- Counterexample to claim C5: running the status-ordered sweep on the
single segment `dA` processes that segment's `End` event, yet the segment's
entry is still in the status structure afterwards — the source's `End` arm is
`EventType::End => {}`, a no-op that removes nothing. -/
theorem c5_counterexample :
    (⟨dA, dA.b, EventType.End⟩ : SweepLinePoint) ∈ (smartRun [dA]).popped ∧
      (⟨dA, dA.a, PointKind.Start⟩ : SweepLineStatus) ∈ (smartRun [dA]).status := by
  have h0 : initQueue [dA] =
      [⟨dA, ⟨0, 2⟩, EventType.Start⟩, ⟨dA, ⟨2, 0⟩, EventType.End⟩] := by
    norm_num [initQueue, queueInsert, dA_a, dA_b]
  have hrun : smartRun [dA] =
      smartLoopF
        (smartMeasure ⟨[⟨dA, ⟨0, 2⟩, EventType.Start⟩, ⟨dA, ⟨2, 0⟩, EventType.End⟩],
          [], [], [], []⟩)
        ⟨[⟨dA, ⟨0, 2⟩, EventType.Start⟩, ⟨dA, ⟨2, 0⟩, EventType.End⟩], [], [], [], []⟩ := by
    rw [smartRun, h0]
  have hm : smartMeasure
      (⟨[⟨dA, ⟨0, 2⟩, EventType.Start⟩, ⟨dA, ⟨2, 0⟩, EventType.End⟩],
        [], [], [], []⟩ : SmartState) = 4 := by
    norm_num [smartMeasure, countStarts, List.countP_cons, isStart]
  have hs1 : smartStep (⟨[⟨dA, ⟨0, 2⟩, EventType.Start⟩, ⟨dA, ⟨2, 0⟩, EventType.End⟩],
      [], [], [], []⟩ : SmartState) =
      some ⟨[⟨dA, ⟨2, 0⟩, EventType.End⟩], [⟨dA, ⟨0, 2⟩, PointKind.Start⟩], [], [],
        [⟨dA, ⟨0, 2⟩, EventType.Start⟩]⟩ := by
    norm_num [smartStep, startCase, neighborStep, get_neighbors, statusInsert]
  have hs2 : smartStep (⟨[⟨dA, ⟨2, 0⟩, EventType.End⟩], [⟨dA, ⟨0, 2⟩, PointKind.Start⟩],
      [], [], [⟨dA, ⟨0, 2⟩, EventType.Start⟩]⟩ : SmartState) =
      some ⟨[], [⟨dA, ⟨0, 2⟩, PointKind.Start⟩], [], [],
        [⟨dA, ⟨0, 2⟩, EventType.Start⟩, ⟨dA, ⟨2, 0⟩, EventType.End⟩]⟩ := by
    norm_num [smartStep]
  have hs3 : smartStep (⟨[], [⟨dA, ⟨0, 2⟩, PointKind.Start⟩], [], [],
      [⟨dA, ⟨0, 2⟩, EventType.Start⟩, ⟨dA, ⟨2, 0⟩, EventType.End⟩]⟩ : SmartState) =
      none := rfl
  have hfinal : smartRun [dA] =
      ⟨[], [⟨dA, ⟨0, 2⟩, PointKind.Start⟩], [], [],
        [⟨dA, ⟨0, 2⟩, EventType.Start⟩, ⟨dA, ⟨2, 0⟩, EventType.End⟩]⟩ := by
    rw [hrun, hm, smartLoopF_succ_some 3 hs1, smartLoopF_succ_some 2 hs2,
      smartLoopF_succ_none 1 hs3]
  rw [hfinal]
  exact ⟨by rw [dA_b]; exact List.mem_cons_of_mem _ (List.mem_cons_self _ _),
    by rw [dA_a]; exact List.mem_cons_self _ _⟩

/-- Claim C5 as amended: processing an `End` event leaves the status
structure unchanged (the segment is *not* removed — the arm is a no-op), and
processing an `Intersection` event likewise leaves it unchanged. -/
theorem c5_amended_end_intersection_noop (st : SmartState) (e : SweepLinePoint)
    (rest : List SweepLinePoint) (hq : st.queue = e :: rest)
    (he : e.event = EventType.End ∨ e.event = EventType.Intersection) :
    ∃ st', smartStep st = some st' ∧ st'.status = st.status := by
  rcases he with he | he
  · exact ⟨{ st with queue := rest, popped := st.popped ++ [e] },
      by simp [smartStep, hq, he], rfl⟩
  · exact ⟨{ st with queue := rest, popped := st.popped ++ [e] },
      by simp [smartStep, hq, he], rfl⟩

/-- Witness for the amended C5 at a concrete state whose head event is an
`End` event. -/
theorem c5_witness :
    (⟨[⟨dB, dB.b, EventType.End⟩], [⟨dB, dB.a, PointKind.Start⟩], [], [], []⟩ :
        SmartState).queue = ⟨dB, dB.b, EventType.End⟩ :: [] ∧
      ∃ st', smartStep ⟨[⟨dB, dB.b, EventType.End⟩], [⟨dB, dB.a, PointKind.Start⟩],
          [], [], []⟩ = some st' ∧
        st'.status = (⟨[⟨dB, dB.b, EventType.End⟩], [⟨dB, dB.a, PointKind.Start⟩],
          [], [], []⟩ : SmartState).status :=
  ⟨rfl, c5_amended_end_intersection_noop _ _ [] rfl (Or.inl rfl)⟩

/-! ### The event queue is keyed solely by `y` (C9) -/

/-- The strict order maintained by the event queue (`Ord for SweepLinePoint`
reversed: least element = greatest `y`). -/
def ydesc (a b : SweepLinePoint) : Prop := b.point.y < a.point.y

theorem eps_pos : (0 : ℚ) < eps := by norm_num [eps]

theorem line_intersect_some_elim {l o : Line} {i : Intersection}
    (h : line_intersect l o = some i) :
    i = ⟨l, o, ptOf l o⟩ ∧ eps < tOf l o ∧ tOf l o < 1 := by
  rw [line_intersect_char] at h
  split_ifs at h with hc
  injection h with h'
  exact ⟨h'.symm, hc.2.1, hc.2.2.1⟩

theorem queueInsert_mem {e a : SweepLinePoint} {q : List SweepLinePoint}
    (h : a ∈ queueInsert e q) : a = e ∨ a ∈ q := by
  induction q with
  | nil => simpa [queueInsert] using h
  | cons x xs ih =>
    rw [queueInsert] at h
    split_ifs at h with h1 h2
    · exact (List.mem_cons.mp h).imp id id
    · exact Or.inr h
    · rcases List.mem_cons.mp h with rfl | h
      · exact Or.inr (List.mem_cons_self _ _)
      · rcases ih h with h | h
        · exact Or.inl h
        · exact Or.inr (List.mem_cons_of_mem _ h)

theorem queueInsert_pairwise {e : SweepLinePoint} {q : List SweepLinePoint}
    (h : List.Pairwise ydesc q) : List.Pairwise ydesc (queueInsert e q) := by
  induction q with
  | nil => simp [queueInsert, ydesc]
  | cons x xs ih =>
    rcases List.pairwise_cons.mp h with ⟨hx, hxs⟩
    rw [queueInsert]
    split_ifs with h1 h2
    · refine List.Pairwise.cons ?_ h
      intro b hb
      rcases List.mem_cons.mp hb with rfl | hb
      · exact h1
      · exact lt_trans (hx b hb) h1
    · exact h
    · refine List.Pairwise.cons ?_ (ih hxs)
      intro b hb
      rcases queueInsert_mem hb with rfl | hb
      · exact lt_of_le_of_ne (not_lt.mp h1) (fun hEq => h2 hEq.symm)
      · exact hx b hb

/-- Inserting an element whose `y` lies strictly below a pivot `e` preserves
the global descending order around `e`. -/
theorem pairwise_insert_under (P R : List SweepLinePoint) (e i : SweepLinePoint)
    (hP : List.Pairwise ydesc (P ++ e :: R)) (hi : i.point.y < e.point.y) :
    List.Pairwise ydesc (P ++ e :: queueInsert i R) := by
  rw [List.pairwise_append] at hP ⊢
  obtain ⟨h1, h2, h3⟩ := hP
  rcases List.pairwise_cons.mp h2 with ⟨he, hR⟩
  refine ⟨h1, List.Pairwise.cons ?_ (queueInsert_pairwise hR), ?_⟩
  · intro b hb
    rcases queueInsert_mem hb with rfl | hb
    · exact hi
    · exact he b hb
  · intro a ha b hb
    rcases List.mem_cons.mp hb with rfl | hb
    · exact h3 a ha b (List.mem_cons_self _ _)
    · rcases queueInsert_mem hb with rfl | hb
      · exact lt_trans hi (h3 a ha e (List.mem_cons_self _ _))
      · exact h3 a ha b (List.mem_cons_of_mem _ hb)

/-- A queued `Start` event carries the endpoint of its segment with the
strictly greater `y`. -/
def isTopStart (ev : SweepLinePoint) : Prop :=
  (ev.point = ev.line.a ∧ ev.line.b.y < ev.line.a.y) ∨
    (ev.point = ev.line.b ∧ ev.line.a.y < ev.line.b.y)

/-- A reported intersection point lies strictly below the top endpoint of the
first segment: its parameter satisfies `ε < t < 1`. -/
theorem intersect_point_y_lt {ev : SweepLinePoint} {o : Line} {i : Intersection}
    (htop : isTopStart ev) (h : line_intersect ev.line o = some i) :
    i.point.y < ev.point.y := by
  obtain ⟨hi, ht1, ht2⟩ := line_intersect_some_elim h
  subst hi
  have hy : (ptOf ev.line o).y =
      ev.line.a.y + (ev.line.b.y - ev.line.a.y) * tOf ev.line o := by
    simp [ptOf, Point.add, Point.scale, Point.sub]
  have ht0 : 0 < tOf ev.line o := lt_trans eps_pos ht1
  rcases htop with ⟨hpt, hlt⟩ | ⟨hpt, hlt⟩
  · rw [hpt, hy]
    nlinarith [mul_pos (sub_pos.mpr hlt) ht0]
  · rw [hpt, hy]
    nlinarith [mul_pos (sub_pos.mpr hlt) (sub_pos.mpr ht2)]

theorem neighborStep_mem {e a : SweepLinePoint} {rest : List SweepLinePoint}
    {nbr : Option SweepLineStatus} (h : a ∈ (neighborStep e rest nbr).1) :
    a.event = EventType.Intersection ∨ a ∈ rest := by
  rcases nbr with _ | nb
  · exact Or.inr h
  · revert h
    show a ∈ (test_neighbour e.line nb.line rest).2 → _
    unfold test_neighbour
    rcases hli : line_intersect e.line nb.line with _ | i
    · exact fun h => Or.inr h
    · intro h
      rcases queueInsert_mem h with rfl | h
      · exact Or.inl rfl
      · exact Or.inr h

theorem neighborStep_pairwise {P rest : List SweepLinePoint} {e : SweepLinePoint}
    {nbr : Option SweepLineStatus}
    (hP : List.Pairwise ydesc (P ++ e :: rest)) (htop : isTopStart e) :
    List.Pairwise ydesc (P ++ e :: (neighborStep e rest nbr).1) := by
  rcases nbr with _ | nb
  · exact hP
  · show List.Pairwise ydesc (P ++ e :: (test_neighbour e.line nb.line rest).2)
    unfold test_neighbour
    rcases hli : line_intersect e.line nb.line with _ | i
    · exact hP
    · exact pairwise_insert_under P rest e _ hP (intersect_point_y_lt htop hli)

/-- The loop invariant for C9: the already-popped events followed by the
queue are in strictly descending `y` order, and every queued `Start` event
carries its segment's top endpoint. -/
def QInv (st : SmartState) : Prop :=
  List.Pairwise ydesc (st.popped ++ st.queue) ∧
    ∀ ev ∈ st.queue, ev.event = EventType.Start → isTopStart ev

theorem smartStep_inv {st st' : SmartState} (h : smartStep st = some st')
    (hinv : QInv st) : QInv st' := by
  obtain ⟨hP, hQ⟩ := hinv
  rcases hq : st.queue with _ | ⟨e, rest⟩
  · simp [smartStep, hq] at h
  · rw [hq] at hP hQ
    rcases he : e.event with _ | _ | _ <;>
      simp only [smartStep, hq, he, Option.some.injEq] at h <;> subst h
    · -- Start
      have htop : isTopStart e := hQ e (List.mem_cons_self _ _) he
      constructor
      · show List.Pairwise ydesc ((st.popped ++ [e]) ++
          (neighborStep e
            (neighborStep e rest
              (get_neighbors e.point
                (statusInsert ⟨e.line, e.point, PointKind.Start⟩ st.status)).1).1
            (get_neighbors e.point
              (statusInsert ⟨e.line, e.point, PointKind.Start⟩ st.status)).2).1)
        rw [List.append_assoc, List.singleton_append]
        exact neighborStep_pairwise (neighborStep_pairwise hP htop) htop
      · intro ev hev hs
        rcases neighborStep_mem hev with hI | hev
        · rw [hI] at hs
          cases hs
        · rcases neighborStep_mem hev with hI | hev
          · rw [hI] at hs
            cases hs
          · exact hQ ev (List.mem_cons_of_mem _ hev) hs
    · -- End
      constructor
      · show List.Pairwise ydesc ((st.popped ++ [e]) ++ rest)
        rw [List.append_assoc, List.singleton_append]
        exact hP
      · intro ev hev hs
        exact hQ ev (List.mem_cons_of_mem _ hev) hs
    · -- Intersection
      constructor
      · show List.Pairwise ydesc ((st.popped ++ [e]) ++ rest)
        rw [List.append_assoc, List.singleton_append]
        exact hP
      · intro ev hev hs
        exact hQ ev (List.mem_cons_of_mem _ hev) hs

theorem smartLoopF_inv (fuel : ℕ) :
    ∀ st : SmartState, QInv st → QInv (smartLoopF fuel st) := by
  induction fuel with
  | zero =>
    intro st h
    rw [smartLoopF]
    exact h
  | succ fuel ih =>
    intro st h
    rcases hs : smartStep st with _ | st'
    · rw [smartLoopF_succ_none fuel hs]
      exact h
    · rw [smartLoopF_succ_some fuel hs]
      exact ih st' (smartStep_inv hs h)

/-- Each event inserted by `initQueue`, when tagged `Start`, carries the top
endpoint of its segment. -/
theorem initQueue_tag_topstart (l : Line) {ev : SweepLinePoint}
    (h : ev = ⟨l, l.a, if l.b.y < l.a.y then EventType.Start else EventType.End⟩ ∨
      ev = ⟨l, l.b, if l.a.y < l.b.y then EventType.Start else EventType.End⟩)
    (hs : ev.event = EventType.Start) : isTopStart ev := by
  rcases h with rfl | rfl
  · split_ifs at hs with hc
    · exact Or.inl ⟨rfl, hc⟩
  · split_ifs at hs with hc
    · exact Or.inr ⟨rfl, hc⟩

theorem initQueue_inv (lines : List Line) :
    QInv ⟨initQueue lines, [], [], [], []⟩ := by
  suffices h : ∀ q : List SweepLinePoint,
      List.Pairwise ydesc q →
      (∀ ev ∈ q, ev.event = EventType.Start → isTopStart ev) →
      List.Pairwise ydesc (lines.foldl
        (fun q l =>
          queueInsert ⟨l, l.b, if l.a.y < l.b.y then EventType.Start else EventType.End⟩
            (queueInsert ⟨l, l.a, if l.b.y < l.a.y then EventType.Start else EventType.End⟩ q))
        q) ∧
      (∀ ev ∈ lines.foldl
        (fun q l =>
          queueInsert ⟨l, l.b, if l.a.y < l.b.y then EventType.Start else EventType.End⟩
            (queueInsert ⟨l, l.a, if l.b.y < l.a.y then EventType.Start else EventType.End⟩ q))
        q, ev.event = EventType.Start → isTopStart ev) by
    obtain ⟨h1, h2⟩ := h [] (List.Pairwise.nil) (by simp)
    exact ⟨by simpa [initQueue] using h1, by simpa [initQueue] using h2⟩
  induction lines with
  | nil => intro q h1 h2; exact ⟨h1, h2⟩
  | cons l ls ih =>
    intro q h1 h2
    rw [List.foldl_cons]
    refine ih _ (queueInsert_pairwise (queueInsert_pairwise h1)) ?_
    intro ev hev hs
    rcases queueInsert_mem hev with rfl | hev
    · exact initQueue_tag_topstart l (Or.inr rfl) hs
    · rcases queueInsert_mem hev with rfl | hev
      · exact initQueue_tag_topstart l (Or.inl rfl) hs
      · exact h2 ev hev hs

/-- `BTreeSet::insert` on the event queue: an element `Ord`-equal to a
present one (same `y`) is discarded and the queue is unchanged. -/
theorem queueInsert_dup {e : SweepLinePoint} {q : List SweepLinePoint}
    (hq : List.Pairwise ydesc q) (hdup : ∃ e' ∈ q, e'.point.y = e.point.y) :
    queueInsert e q = q := by
  induction q with
  | nil =>
    obtain ⟨e', h, -⟩ := hdup
    cases h
  | cons x xs ih =>
    obtain ⟨e', he', hy⟩ := hdup
    rcases List.pairwise_cons.mp hq with ⟨hx, hxs⟩
    by_cases h1 : x.point.y < e.point.y
    · exfalso
      rcases List.mem_cons.mp he' with rfl | he'
      · exact absurd hy (ne_of_lt h1)
      · have h' : e'.point.y < x.point.y := hx e' he'
        rw [hy] at h'
        exact absurd h1 (not_lt.mpr h'.le)
    · by_cases h2 : x.point.y = e.point.y
      · rw [queueInsert, if_neg h1, if_pos h2]
      · have he'' : e' ∈ xs := by
          rcases List.mem_cons.mp he' with rfl | he'
          · exact absurd hy h2
          · exact he'
        rw [queueInsert, if_neg h1, if_neg h2, ih hxs ⟨e', he'', hy⟩]

/-- Claim C9: the event queue is keyed solely by the event point's `y`:
inserting an event whose `y` equals that of a queued event leaves the queue
unchanged, and along any run the processed events have pairwise distinct
`y` coordinates (at most one event per distinct `y`). -/
theorem c9_queue_keyed_by_y :
    (∀ (e : SweepLinePoint) (q : List SweepLinePoint),
        List.Pairwise ydesc q → (∃ e' ∈ q, e'.point.y = e.point.y) →
        queueInsert e q = q) ∧
      ∀ lines : List Line,
        List.Pairwise (fun a b => a.point.y ≠ b.point.y) (smartRun lines).popped := by
  constructor
  · exact fun e q hq hd => queueInsert_dup hq hd
  · intro lines
    have hinv : QInv (smartRun lines) :=
      smartLoopF_inv _ _ (initQueue_inv lines)
    have hpop : List.Pairwise ydesc (smartRun lines).popped :=
      (List.pairwise_append.mp hinv.1).1
    exact hpop.imp fun hlt => ne_of_gt hlt

/-- Witness for C9: a duplicate-`y` insertion is discarded on a concrete
queue, and a concrete run's processed events have distinct `y`s. -/
theorem c9_witness :
    queueInsert ⟨dB, ⟨3, 5⟩, EventType.End⟩ [⟨dA, ⟨0, 5⟩, EventType.Start⟩] =
        [⟨dA, ⟨0, 5⟩, EventType.Start⟩] ∧
      List.Pairwise (fun a b => a.point.y ≠ b.point.y) (smartRun [dA]).popped :=
  ⟨c9_queue_keyed_by_y.1 _ _ (List.pairwise_singleton _ _)
      ⟨⟨dA, ⟨0, 5⟩, EventType.Start⟩, List.mem_singleton_self _, rfl⟩,
   c9_queue_keyed_by_y.2 [dA]⟩

/-! ### Oracle comparison between the active-set sweep and brute force (C1) -/

/-- Fold invariant: every active segment comes from the input, and every
recorded intersection is a positive `line_intersect` result over two input
segments. -/
theorem sweep_foldl_provenance (lines : List Line) (pts : List SweepLinePoint)
    (st : SweepState)
    (hpts : ∀ ev ∈ pts, ev.line ∈ lines)
    (hact : ∀ l ∈ st.active, l ∈ lines)
    (hint : ∀ it ∈ st.intersections,
      ∃ l o, l ∈ lines ∧ o ∈ lines ∧ line_intersect l o = some it) :
    (∀ l ∈ (pts.foldl sweepStep st).active, l ∈ lines) ∧
      (∀ it ∈ (pts.foldl sweepStep st).intersections,
        ∃ l o, l ∈ lines ∧ o ∈ lines ∧ line_intersect l o = some it) := by
  induction pts generalizing st with
  | nil => exact ⟨hact, hint⟩
  | cons e pts ih =>
    rw [List.foldl_cons]
    rcases he : e.event with _ | _ | _
    · rw [sweepStep_start st e he]
      refine ih _ (fun ev hev => hpts ev (List.mem_cons_of_mem e hev)) ?_ ?_
      · intro l hl
        rcases List.mem_append.mp hl with hl | hl
        · exact hact l hl
        · rcases List.mem_singleton.mp hl with rfl
          exact hpts e (List.mem_cons_self e pts)
      · intro it hit
        rcases List.mem_append.mp hit with hit | hit
        · exact hint it hit
        · obtain ⟨o, ho, hli⟩ := List.mem_filterMap.mp hit
          exact ⟨e.line, o, hpts e (List.mem_cons_self e pts), hact o ho, hli⟩
    · rw [sweepStep_end st e he]
      exact ih _ (fun ev hev => hpts ev (List.mem_cons_of_mem e hev))
        (fun l hl => hact l (List.mem_of_mem_filter hl)) hint
    · rw [sweepStep_inter st e he]
      exact ih _ (fun ev hev => hpts ev (List.mem_cons_of_mem e hev)) hact hint

theorem sweep_intersections_provenance {lines : List Line} {it : Intersection}
    (h : it ∈ (sweepLine_report lines).intersections) :
    ∃ l o, l ∈ lines ∧ o ∈ lines ∧ line_intersect l o = some it := by
  have hp := sweep_foldl_provenance lines (sortYDesc (sweepEvents lines)) ⟨[], [], []⟩
    (fun ev hev => (sweepEvents_mem_line ((sortYDesc_perm _).mem_iff.mp hev)).1)
    (by simp) (by simp)
  exact hp.2 it h

theorem li_H_V :
    line_intersect ⟨1, ⟨0, 1⟩, ⟨4, 1⟩⟩ ⟨2, ⟨2, 3⟩, ⟨2, -1⟩⟩ =
      some ⟨⟨1, ⟨0, 1⟩, ⟨4, 1⟩⟩, ⟨2, ⟨2, 3⟩, ⟨2, -1⟩⟩, ⟨2, 1⟩⟩ := by
  rw [line_intersect_char]
  norm_num [rsOf, qprOf, qpsOf, tOf, uOf, ptOf, cross2d, Point.sub, Point.add,
    Point.scale, eps]

/-- Counterexample to claim C1: the horizontal segment `(0,1)-(4,1)` crosses
`(2,3)-(2,-1)` at `(2,1)`; brute force reports it, but the active-set sweep
tags both endpoints of the horizontal segment `End`, never activates it, and
reports nothing. -/
theorem c1_counterexample :
    bruteIntersections [⟨1, ⟨0, 1⟩, ⟨4, 1⟩⟩, ⟨2, ⟨2, 3⟩, ⟨2, -1⟩⟩] =
        [⟨⟨1, ⟨0, 1⟩, ⟨4, 1⟩⟩, ⟨2, ⟨2, 3⟩, ⟨2, -1⟩⟩, ⟨2, 1⟩⟩] ∧
      (sweepLine_report [⟨1, ⟨0, 1⟩, ⟨4, 1⟩⟩, ⟨2, ⟨2, 3⟩, ⟨2, -1⟩⟩]).intersections =
        [] := by
  constructor
  · simp [bruteIntersections, show brutePairs 2 = [(0, 1)] from rfl, li_H_V]
  · norm_num [sweepLine_report, sweepRun, sweepEvents, sortYDesc, insertYDesc,
      sweepStep]

/-- Claim C1 as amended: one inclusion survives — every intersection reported
by the active-set sweep is also reported by brute force, with the identical
point and the same unordered pair of segments.  (The converse fails for
segments with equal endpoint `y`, which the sweep never activates.) -/
theorem c1_sweep_reports_subset_of_brute (lines : List Line) (inter : Intersection)
    (h : inter ∈ (sweepLine_report lines).intersections) :
    ∃ inter' ∈ bruteIntersections lines,
      inter'.point = inter.point ∧
        ((inter'.l1 = inter.l1 ∧ inter'.l2 = inter.l2) ∨
          (inter'.l1 = inter.l2 ∧ inter'.l2 = inter.l1)) := by
  obtain ⟨l, o, hl, ho, hli⟩ := sweep_intersections_provenance h
  obtain ⟨hi, -, -⟩ := line_intersect_some_elim hli
  subst hi
  have hlo : l ≠ o := by
    rintro rfl
    rw [line_intersect_self] at hli
    cases hli
  obtain ⟨i, hin, hieq⟩ := List.mem_iff_getElem.mp hl
  obtain ⟨j, hjn, hjeq⟩ := List.mem_iff_getElem.mp ho
  have hij : i ≠ j := by
    rintro rfl
    rw [hieq] at hjeq
    exact hlo hjeq
  rcases Nat.lt_or_ge i j with hlt | hge
  · refine ⟨⟨l, o, ptOf l o⟩, ?_, rfl, Or.inl ⟨rfl, rfl⟩⟩
    refine bruteIntersections_mem hlt hjn ?_
    rw [List.getD_eq_getElem lines default (by omega),
      List.getD_eq_getElem lines default hjn, hieq, hjeq]
    exact hli
  · have hlt : j < i := by omega
    refine ⟨⟨o, l, ptOf l o⟩, ?_, rfl, Or.inr ⟨rfl, rfl⟩⟩
    refine bruteIntersections_mem hlt hin ?_
    rw [List.getD_eq_getElem lines default (by omega),
      List.getD_eq_getElem lines default hin, hjeq, hieq]
    rw [line_intersect_swap, hli]
    rfl

/-- Concrete evaluation of the sweep on the crossing pair `dA`, `dB`. -/
theorem sweep_dA_dB :
    (sweepLine_report [dA, dB]).intersections = [⟨dB, dA, ⟨1, 1⟩⟩] := by
  norm_num [sweepLine_report, sweepRun, sweepEvents, sortYDesc, insertYDesc,
    sweepStep, List.filterMap_cons, List.filterMap_nil, dA_id, dA_a, dA_b,
    dB_id, dB_a, dB_b, li_dB_dA]

/-- Witness for the amended C1: the sweep's reported intersection of `dA` and
`dB` appears in the brute-force report (with the pair swapped, since brute
force tests in index order). -/
theorem c1_witness :
    (⟨dB, dA, ⟨1, 1⟩⟩ : Intersection) ∈ (sweepLine_report [dA, dB]).intersections ∧
      ∃ inter' ∈ bruteIntersections [dA, dB],
        inter'.point = (⟨dB, dA, ⟨1, 1⟩⟩ : Intersection).point ∧
          ((inter'.l1 = (⟨dB, dA, ⟨1, 1⟩⟩ : Intersection).l1 ∧
              inter'.l2 = (⟨dB, dA, ⟨1, 1⟩⟩ : Intersection).l2) ∨
            (inter'.l1 = (⟨dB, dA, ⟨1, 1⟩⟩ : Intersection).l2 ∧
              inter'.l2 = (⟨dB, dA, ⟨1, 1⟩⟩ : Intersection).l1)) :=
  ⟨by rw [sweep_dA_dB]; exact List.mem_singleton_self _,
   c1_sweep_reports_subset_of_brute [dA, dB] _
     (by rw [sweep_dA_dB]; exact List.mem_singleton_self _)⟩

end Intersect
